import Mathlib

/-!
Verification of the `MagesticEquityData` class (src/utils.py) of the
Majestic-Equity-Data repository.

Modelling choices (shallow embedding):

* Calendar dates are modelled as `Nat` (days since an epoch).  The source
  parses ISO date strings with `pd.to_datetime`; ISO strings compare
  lexicographically exactly as their dates compare chronologically, so the
  string-to-date conversion is modelled as the identity on the `Nat`
  representation.
* A date-indexed pandas DataFrame is modelled row-wise: a `Table β` is a
  list of (date, payload) pairs; a `DF V` carries, in addition, the list of
  column names and each row's payload is the list of its cells, a cell
  being `Option V` (`none` is pandas' NaN / "no value" marker).
* `numpy.searchsorted` on a sorted index: `side="left"` returns the number
  of index entries strictly below the key, `side="right"` the number of
  entries not above it.  The `takeWhile` definitions below compute exactly
  that on a sorted (monotonically increasing) index, which is the only
  situation in which `searchsorted`'s binary search is specified.
* `df.index[i]` with a possibly negative Python position is `pyIndexGet`
  (negative positions address from the back, out-of-range raises
  `IndexError`).
* `df.loc[a:b]` on a monotonic index is the positional slice between the
  left insertion point of `a` and the right insertion point of `b`.
* Python exceptions are modelled by `Except PyError`.  The source raises
  `ValueError` both for range violations in `filter_df_by_date` (the spec's
  `RangeError`) and for unknown tickers in `history` (the spec's
  `ValidationError`); the two sites are distinguished by their payloads,
  exactly as the spec's taxonomy distinguishes them.
-/

namespace MagesticEquityData

/-- A date-indexed table: one (date, payload) pair per row, in index order. -/
abbrev Table (β : Type) := List (Nat × β)

/-- The date index of a table (`df.index`). -/
def dates {β : Type} (t : Table β) : List Nat := t.map Prod.fst

/-- Python exceptions raised by the modelled code. -/
inductive PyError where
  /-- `ValueError` raised by `filter_df_by_date` (spec: `RangeError`). -/
  | rangeError (msg : String)
  /-- `IndexError` from an out-of-range positional index access. -/
  | indexError
  /-- `KeyError` from selecting a missing column. -/
  | keyError (col : String)
  /-- `ValueError` raised by `history` (spec: `ValidationError`);
      carries the list of offending tickers, in request order, exactly as
      the source interpolates them into the message. -/
  | validationError (invalid : List String)
deriving Repr, DecidableEq

/-- `np.searchsorted(index, x, side="left")` on a sorted index: the number
    of entries strictly smaller than `x`. -/
def searchsortedLeft (l : List Nat) (x : Nat) : Nat :=
  (l.takeWhile (fun d => d < x)).length

/-- `np.searchsorted(index, x, side="right")` on a sorted index: the number
    of entries not larger than `x`. -/
def searchsortedRight (l : List Nat) (x : Nat) : Nat :=
  (l.takeWhile (fun d => d ≤ x)).length

/-- `index[i]` with Python semantics: a negative `i` addresses from the
    back; a position out of range is an `IndexError`, modelled as `none`. -/
def pyIndexGet (l : List Nat) (i : Int) : Option Nat :=
  if 0 ≤ i then l.get? i.toNat
  else if (-i).toNat ≤ l.length then l.get? (l.length - (-i).toNat)
  else none

/-- `x < df.index.min()`; pandas' `min()` of an empty index is `NaT` and
    every comparison against `NaT` is false. -/
def belowMin (l : List Nat) (x : Nat) : Bool :=
  match l.min? with
  | some m => decide (x < m)
  | none => false

/-- `df.index.max() < x`; same `NaT` convention for an empty index. -/
def aboveMax (l : List Nat) (x : Nat) : Bool :=
  match l.max? with
  | some m => decide (m < x)
  | none => false

/-- `df.loc[a:b]` on a monotonic index: the rows between the left insertion
    point of `a` (inclusive) and the right insertion point of `b`
    (exclusive). -/
def locSlice {β : Type} (t : Table β) (a b : Nat) : Table β :=
  (t.drop (searchsortedLeft (dates t) a)).take
    (searchsortedRight (dates t) b - searchsortedLeft (dates t) a)

/-- `df.loc[a:]` on a monotonic index. -/
def locFrom {β : Type} (t : Table β) (a : Nat) : Table β :=
  t.drop (searchsortedLeft (dates t) a)

/-- `df.loc[:b]` on a monotonic index. -/
def locTo {β : Type} (t : Table β) (b : Nat) : Table β :=
  t.take (searchsortedRight (dates t) b)

/-- `filter_df_by_date` (src/utils.py lines 57-94): validates
    `start < end`, validates containment in the index span, snaps each
    endpoint that is not an exact index entry (`start` via
    `searchsorted(..., side="left")`, `end` via
    `searchsorted(..., side="right") - 1`), then slices with `df.loc`. -/
def filter_df_by_date {β : Type} (t : Table β) (s e : Nat) :
    Except PyError (Table β) :=
  if e ≤ s then
    .error (.rangeError
      "The start date must be strictly earlier than the end date.")
  else if belowMin (dates t) s || aboveMax (dates t) e then
    .error (.rangeError
      "The dates must be within the range of the DataFrame's index.")
  else
    let ds := dates t
    let rs : Except PyError Nat :=
      if s ∈ ds then .ok s else
        match pyIndexGet ds (searchsortedLeft ds s : Int) with
        | some d => .ok d
        | none => .error .indexError
    let re : Except PyError Nat :=
      if e ∈ ds then .ok e else
        match pyIndexGet ds ((searchsortedRight ds e : Int) - 1) with
        | some d => .ok d
        | none => .error .indexError
    match rs, re with
    | .ok sd, .ok ed => .ok (locSlice t sd ed)
    | .error er, _ => .error er
    | _, .error er => .error er

/-- The smallest index entry not less than `x` (the spec's forward snap);
    on a sorted index this is the first entry surviving the filter. -/
def resolveStart (l : List Nat) (x : Nat) : Option Nat :=
  (l.filter (fun d => x ≤ d)).head?

/-- The largest index entry not greater than `x` (the spec's backward
    snap); on a sorted index this is the last entry surviving the filter. -/
def resolveEnd (l : List Nat) (x : Nat) : Option Nat :=
  (l.filter (fun d => d ≤ x)).getLast?

/-! ### DataFrames with named columns

A `DF V` models a pandas DataFrame with scalar cells of type `V` (the
source stores floats; the claims are about table structure, never about
float arithmetic, so the cell type stays abstract).  A cell is `Option V`;
`none` models NaN, pandas' "no value" marker. -/

structure DF (V : Type) where
  colNames : List String
  rows : Table (List (Option V))
deriving Repr, DecidableEq

/-- The empty DataFrame `pd.DataFrame()`. -/
def emptyDF {V : Type} : DF V := ⟨[], []⟩

/-- `pd.DataFrame.from_dict(prices_data, orient='index',
    columns=['Close Price'])`: one row per price entry, a single column. -/
def pricesDF {V : Type} (p : List (Nat × V)) : DF V :=
  ⟨["Close Price"], p.map (fun r => (r.1, [some r.2]))⟩

/-- Column labels of `pd.DataFrame.from_dict(weights_data, orient='index')`:
    the distinct constituent keys in order of first appearance. -/
def weightKeys {V : Type} (w : List (Nat × List (String × V))) :
    List String :=
  w.foldl (fun acc row =>
    acc ++ (row.2.map Prod.fst).filter (fun k => decide (¬ k ∈ acc))) []

/-- `pd.DataFrame.from_dict(weights_data, orient='index')`: one row per
    weight entry, one column per distinct constituent key, NaN where a
    row lacks a key. -/
def weightsDF {V : Type} (w : List (Nat × List (String × V))) : DF V :=
  ⟨weightKeys w,
    w.map (fun row => (row.1, (weightKeys w).map (fun k => row.2.lookup k)))⟩

/-- `df.reindex`-style row extraction used by `pd.concat(axis=1)`: the
    row's cells if the date is present, otherwise a row of NaN.  (pandas
    reindexing requires unique labels; all indexes here come from Python
    dicts, whose keys are unique.) -/
def reindexRow {V : Type} (d : DF V) (dt : Nat) : List (Option V) :=
  match d.rows.lookup dt with
  | some vs => vs
  | none => List.replicate d.colNames.length none

/-- `Index.union` of two distinct-label indexes as performed by
    `pd.concat(axis=1)` on unequal indexes: the union of the labels in
    sorted order. -/
def sortedUnion (i1 i2 : List Nat) : List Nat :=
  (i1 ++ i2.filter (fun x => decide (¬ x ∈ i1))).mergeSort
    (fun a b => decide (a ≤ b))

/-- The index `pd.concat(axis=1)` gives its result: the first index when
    the two agree, their sorted union otherwise. -/
def concatIndex (i1 i2 : List Nat) : List Nat :=
  if i1 = i2 then i1 else sortedUnion i1 i2

/-- `pd.concat([d1, d2], axis=1)`: when the two indexes are equal the rows
    are joined positionally and the index kept; otherwise the result is
    indexed by the union of the labels and each side is reindexed, filling
    NaN. -/
def concatCols {V : Type} (d1 d2 : DF V) : DF V :=
  if dates d1.rows = dates d2.rows then
    ⟨d1.colNames ++ d2.colNames,
      d1.rows.zipWith (fun r1 r2 => (r1.1, r1.2 ++ r2.2)) d2.rows⟩
  else
    ⟨d1.colNames ++ d2.colNames,
      (sortedUnion (dates d1.rows) (dates d2.rows)).map
        (fun dt => (dt, reindexRow d1 dt ++ reindexRow d2 dt))⟩

/-- `process_etf_data` (src/utils.py lines 23-55), the spec's `load`, after
    the JSON files have been parsed: builds the price frame and the weight
    frame and concatenates them column-wise.  The two list arguments are
    the parsed contents of the two JSON files (Python dicts: their key
    lists are duplicate-free). -/
def process_etf_data {V : Type} (p : List (Nat × V))
    (w : List (Nat × List (String × V))) : DF V :=
  concatCols (pricesDF p) (weightsDF w)

/-- `filter_df_by_date` applied to a `DF`: filters the rows, keeping the
    column structure. -/
def filterDF {V : Type} (d : DF V) (s e : Nat) : Except PyError (DF V) :=
  (filter_df_by_date d.rows s e).map (fun rows => ⟨d.colNames, rows⟩)

/-- `retrieve_etf_data` (src/utils.py lines 96-115): loads the combined
    frame for the ticker, then filters it by the date range. -/
def retrieve_etf_data {V : Type} (p : List (Nat × V))
    (w : List (Nat × List (String × V))) (s e : Nat) :
    Except PyError (DF V) :=
  let df := process_etf_data p w
  filterDF df s e

/-- Modelled from the spec, for the refinement claim: "retrieve(ticker,
    start, end) composes load then filterByDate; error conditions
    propagate unchanged". -/
def retrieveSpec {V : Type} (p : List (Nat × V))
    (w : List (Nat × List (String × V))) (s e : Nat) :
    Except PyError (DF V) :=
  filterDF (process_etf_data p w) s e

/-- `download` (src/utils.py lines 117-142) after loading: the first
    argument is the combined frame `process_etf_data(ticker)`.  Both bounds
    present → the two-sided filter; a single bound → a plain `df.loc`
    truncation with no validation and no snapping; no bounds → the frame
    unchanged. -/
def download {V : Type} (d : DF V) (s? e? : Option Nat) :
    Except PyError (DF V) :=
  match s?, e? with
  | some s, some e => filterDF d s e
  | some s, none => .ok ⟨d.colNames, locFrom d.rows s⟩
  | none, some e => .ok ⟨d.colNames, locTo d.rows e⟩
  | none, none => .ok d

/-- `df[['Close Price']].rename(columns={'Close Price': ticker})` for a
    general column `c`: selecting a missing column is a `KeyError`. -/
def selectRename {V : Type} (d : DF V) (c newName : String) :
    Except PyError (DF V) :=
  match d.colNames.findIdx? (fun n => n == c) with
  | none => .error (.keyError c)
  | some i => .ok ⟨[newName], d.rows.map (fun r => (r.1, [r.2.getD i none]))⟩

/-- The loop body of `history`: for each ticker in order, download,
    extract/rename the price column, and concatenate column-wise onto the
    accumulator. -/
def historyLoop {V : Type} (loadf : String → DF V) (s? e? : Option Nat) :
    DF V → List String → Except PyError (DF V)
  | acc, [] => .ok acc
  | acc, tk :: rest =>
    match download (loadf tk) s? e? with
    | .error er => .error er
    | .ok df =>
      match selectRename df "Close Price" tk with
      | .error er => .error er
      | .ok col => historyLoop loadf s? e? (concatCols acc col) rest

/-- The default ticker allow-list of the class constructor (note the
    duplicated "Value", as in the source). -/
def defaultTickers : List String :=
  ["Dividend", "Value", "LowVol", "MarketCap", "Momentum", "Quality",
    "Value"]

/-- `history` (src/utils.py lines 144-177): `allow` is the configured
    allow-list (`self.tickers`), `loadf` the per-ticker loaded frame
    (`process_etf_data`).  Validates all tickers up front, collecting every
    offender; then folds the per-ticker price columns onto an empty
    frame. -/
def history {V : Type} (allow : List String) (loadf : String → DF V)
    (ts : List String) (s? e? : Option Nat) : Except PyError (DF V) :=
  let invalid := ts.filter (fun tk => decide (¬ tk ∈ allow))
  if invalid.isEmpty then historyLoop loadf s? e? emptyDF ts
  else .error (.validationError invalid)

/-- The price cell a ticker's slice contributes for a date: the row's
    single cell when the date is present, the NaN marker otherwise. -/
def cellOf {V : Type} (c : DF V) (dt : Nat) : Option V :=
  match c.rows.lookup dt with
  | some vs => vs.getD 0 none
  | none => none

/-- The single-column frame `history` builds for one ticker: download with
    the given bounds, select the price column, rename it to `name`. -/
def priceColumn {V : Type} (d : DF V) (s? e? : Option Nat) (name : String) :
    DF V :=
  match download d s? e? with
  | .error _ => ⟨[name], []⟩
  | .ok df =>
    match selectRename df "Close Price" name with
    | .error _ => ⟨[name], []⟩
    | .ok col => col

/-- The "Close Price" cells `process_etf_data` produces for a date: the
    price when the date is in the price dataset, NaN otherwise. -/
def priceCells {V : Type} (p : List (Nat × V)) (dt : Nat) :
    List (Option V) :=
  match p.lookup dt with
  | some v => [some v]
  | none => [none]

/-- The weight cells `process_etf_data` produces for a date: the row's
    value per column key when the date is in the weights dataset, NaN in
    every weight column otherwise. -/
def weightCells {V : Type} (w : List (Nat × List (String × V))) (dt : Nat) :
    List (Option V) :=
  match w.lookup dt with
  | some row => (weightKeys w).map (fun k => row.lookup k)
  | none => List.replicate (weightKeys w).length none

/-! ### Sorted-index lemmas -/

theorem sortedRows {β : Type} {t : Table β}
    (hs : (dates t).Sorted (· < ·)) :
    t.Pairwise (fun r r' => r.1 < r'.1) :=
  (List.pairwise_map).1 hs

theorem dropWhile_lt_eq_filter {β : Type} {t : Table β} (a : Nat)
    (hp : t.Pairwise (fun r r' => r.1 < r'.1)) :
    t.dropWhile (fun r => r.1 < a) = t.filter (fun r => a ≤ r.1) := by
  induction t with
  | nil => rfl
  | cons r tl ih =>
    rcases List.pairwise_cons.1 hp with ⟨hr, htl⟩
    by_cases h : r.1 < a
    · simp [List.dropWhile_cons, h, Nat.not_le.2 h, ih htl]
    · have ha : a ≤ r.1 := Nat.not_lt.1 h
      have : tl.filter (fun r' => decide (a ≤ r'.1)) = tl :=
        List.filter_eq_self.2 fun r' hr' => by
          simpa using le_trans ha (le_of_lt (hr r' hr'))
      simp [List.dropWhile_cons, h, ha, this]

theorem takeWhile_le_eq_filter {β : Type} {t : Table β} (b : Nat)
    (hp : t.Pairwise (fun r r' => r.1 < r'.1)) :
    t.takeWhile (fun r => r.1 ≤ b) = t.filter (fun r => r.1 ≤ b) := by
  induction t with
  | nil => rfl
  | cons r tl ih =>
    rcases List.pairwise_cons.1 hp with ⟨hr, htl⟩
    by_cases h : r.1 ≤ b
    · simp [List.takeWhile_cons, h, ih htl]
    · have : tl.filter (fun r' => decide (r'.1 ≤ b)) = [] :=
        List.filter_eq_nil_iff.2 fun r' hr' => by
          simp only [decide_eq_true_eq]
          exact fun hle => h (le_of_lt (lt_of_lt_of_le (hr r' hr') hle))
      simp [List.takeWhile_cons, h, this]

theorem searchsortedLeft_dates {β : Type} (t : Table β) (a : Nat) :
    searchsortedLeft (dates t) a =
      (t.takeWhile (fun r => r.1 < a)).length := by
  simp only [searchsortedLeft, dates, List.takeWhile_map, List.length_map]
  rfl

theorem searchsortedRight_dates {β : Type} (t : Table β) (b : Nat) :
    searchsortedRight (dates t) b =
      (t.takeWhile (fun r => r.1 ≤ b)).length := by
  simp only [searchsortedRight, dates, List.takeWhile_map, List.length_map]
  rfl

theorem take_length_takeWhile {β : Type} (t : List β) (p : β → Bool) :
    t.take (t.takeWhile p).length = t.takeWhile p := by
  induction t with
  | nil => rfl
  | cons r tl ih =>
    by_cases h : p r
    · simp [List.takeWhile_cons, h, ih]
    · simp [List.takeWhile_cons, h]

theorem drop_length_takeWhile {β : Type} (t : List β) (p : β → Bool) :
    t.drop (t.takeWhile p).length = t.dropWhile p := by
  induction t with
  | nil => rfl
  | cons r tl ih =>
    by_cases h : p r
    · simp [List.takeWhile_cons, List.dropWhile_cons, h, ih]
    · simp [List.takeWhile_cons, List.dropWhile_cons, h]

/-- `df.loc[a:]` on a sorted index keeps exactly the rows with date ≥ a. -/
theorem locFrom_eq_filter {β : Type} {t : Table β} (a : Nat)
    (hs : (dates t).Sorted (· < ·)) :
    locFrom t a = t.filter (fun r => a ≤ r.1) := by
  rw [locFrom, searchsortedLeft_dates, drop_length_takeWhile,
    dropWhile_lt_eq_filter a (sortedRows hs)]

/-- `df.loc[:b]` on a sorted index keeps exactly the rows with date ≤ b. -/
theorem locTo_eq_filter {β : Type} {t : Table β} (b : Nat)
    (hs : (dates t).Sorted (· < ·)) :
    locTo t b = t.filter (fun r => r.1 ≤ b) := by
  rw [locTo, searchsortedRight_dates, take_length_takeWhile,
    takeWhile_le_eq_filter b (sortedRows hs)]

/-- `df.loc[a:b]` on a sorted index keeps exactly the rows with
    a ≤ date ≤ b. -/
theorem locSlice_eq_filter {β : Type} {t : Table β} (a b : Nat)
    (hs : (dates t).Sorted (· < ·)) :
    locSlice t a b = t.filter (fun r => a ≤ r.1 ∧ r.1 ≤ b) := by
  have hp := sortedRows hs
  induction t with
  | nil => rfl
  | cons r tl ih =>
    rcases List.pairwise_cons.1 hp with ⟨hr, htl⟩
    have ihtl := ih ((List.pairwise_map).2 htl) htl
    by_cases h1 : r.1 < a
    · have hna : ¬ a ≤ r.1 := Nat.not_le.2 h1
      by_cases h2 : r.1 ≤ b
      · simpa [locSlice, searchsortedLeft, searchsortedRight, dates,
          List.takeWhile_cons, h1, h2, hna, Nat.succ_sub_succ] using ihtl
      · have : tl.filter
            (fun r' => decide (a ≤ r'.1) && decide (r'.1 ≤ b)) = [] :=
          List.filter_eq_nil_iff.2 fun r' hr' => by
            simp only [Bool.and_eq_true, decide_eq_true_eq, not_and]
            exact fun _ hle => h2 (le_of_lt (lt_of_lt_of_le (hr r' hr') hle))
        simp [locSlice, searchsortedLeft, searchsortedRight, dates,
          List.takeWhile_cons, h1, h2, hna, this]
    · have ha : a ≤ r.1 := Nat.not_lt.1 h1
      by_cases h2 : r.1 ≤ b
      · have htake : tl.take (searchsortedRight (dates tl) b) =
            tl.filter (fun r' => r'.1 ≤ b) := by
          rw [searchsortedRight_dates, take_length_takeWhile,
            takeWhile_le_eq_filter b htl]
        have hcongr : tl.filter (fun r' => decide (r'.1 ≤ b)) =
            tl.filter (fun r' => decide (a ≤ r'.1 ∧ r'.1 ≤ b)) :=
          List.filter_congr fun r' hr' => by
            have := le_trans ha (le_of_lt (hr r' hr'))
            simp [this]
        have hss : searchsortedLeft (dates (r :: tl)) a = 0 := by
          simp [searchsortedLeft, dates, List.takeWhile_cons, h1]
        have hsr : searchsortedRight (dates (r :: tl)) b =
            searchsortedRight (dates tl) b + 1 := by
          simp [searchsortedRight, dates, List.takeWhile_cons, h2,
            Nat.add_comm]
        rw [locSlice, hss, hsr, Nat.sub_zero, List.drop_zero,
          List.take_succ_cons, List.filter_cons_of_pos (by simp [ha, h2]),
          htake, hcongr]
      · have : tl.filter
            (fun r' => decide (a ≤ r'.1) && decide (r'.1 ≤ b)) = [] :=
          List.filter_eq_nil_iff.2 fun r' hr' => by
            simp only [Bool.and_eq_true, decide_eq_true_eq, not_and]
            exact fun _ hle => h2 (le_of_lt (lt_of_lt_of_le (hr r' hr') hle))
        simp [locSlice, searchsortedLeft, searchsortedRight, dates,
          List.takeWhile_cons, h1, ha, h2, this]

/-! ### Endpoint-resolution lemmas on a sorted index -/

theorem dropWhile_lt_eq_filter_idx {l : List Nat} (a : Nat)
    (hs : l.Sorted (· < ·)) :
    l.dropWhile (fun d => d < a) = l.filter (fun d => a ≤ d) := by
  induction l with
  | nil => rfl
  | cons x tl ih =>
    rcases List.pairwise_cons.1 hs with ⟨hx, htl⟩
    by_cases h : x < a
    · simp [List.dropWhile_cons, h, Nat.not_le.2 h, ih htl]
    · have ha : a ≤ x := Nat.not_lt.1 h
      have : tl.filter (fun d => decide (a ≤ d)) = tl :=
        List.filter_eq_self.2 fun d hd => by
          simpa using le_trans ha (le_of_lt (hx d hd))
      simp [List.dropWhile_cons, h, ha, this]

theorem takeWhile_le_eq_filter_idx {l : List Nat} (b : Nat)
    (hs : l.Sorted (· < ·)) :
    l.takeWhile (fun d => d ≤ b) = l.filter (fun d => d ≤ b) := by
  induction l with
  | nil => rfl
  | cons x tl ih =>
    rcases List.pairwise_cons.1 hs with ⟨hx, htl⟩
    by_cases h : x ≤ b
    · simp [List.takeWhile_cons, h, ih htl]
    · have : tl.filter (fun d => decide (d ≤ b)) = [] :=
        List.filter_eq_nil_iff.2 fun d hd => by
          simp only [decide_eq_true_eq]
          exact fun hle => h (le_of_lt (lt_of_lt_of_le (hx d hd) hle))
      simp [List.takeWhile_cons, h, this]

/-- If some index entry is ≥ `s`, the left insertion point of `s` is a
    valid position. -/
theorem searchsortedLeft_lt_length {l : List Nat} {s : Nat}
    (hex : ∃ d ∈ l, s ≤ d) : searchsortedLeft l s < l.length := by
  rcases hex with ⟨d, hd, hsd⟩
  have hsub := List.takeWhile_sublist (l := l) (fun x => decide (x < s))
  have hle : searchsortedLeft l s ≤ l.length := hsub.length_le
  rcases Nat.lt_or_ge (searchsortedLeft l s) l.length with h | h
  · exact h
  · exfalso
    have heq : l.takeWhile (fun x => decide (x < s)) = l :=
      hsub.eq_of_length (le_antisymm hle h)
    have := List.takeWhile_eq_self_iff.1 heq d hd
    simp only [decide_eq_true_eq] at this
    omega

/-- If some index entry is ≤ `e`, the right insertion point of `e` is
    positive. -/
theorem searchsortedRight_pos {l : List Nat} {e : Nat}
    (hs : l.Sorted (· < ·)) (hex : ∃ d ∈ l, d ≤ e) :
    1 ≤ searchsortedRight l e := by
  rcases hex with ⟨d, hd, hde⟩
  cases l with
  | nil => cases hd
  | cons x tl =>
    have hxd : x ≤ d := by
      rcases hd with _ | hd
      · exact le_refl _
      · exact le_of_lt ((List.pairwise_cons.1 hs).1 d (by assumption))
    have hxe : x ≤ e := le_trans hxd hde
    simp [searchsortedRight, List.takeWhile_cons, hxe]

/-- The head of a sorted list is a lower bound for its members. -/
theorem head_le_of_sorted {L : List Nat} (hs : L.Sorted (· < ·)) {x : Nat}
    (hx : x ∈ L) (h : L ≠ []) : L.head h ≤ x := by
  cases L with
  | nil => cases hx
  | cons y tl =>
    rcases hx with _ | hx
    · exact le_refl _
    · exact le_of_lt ((List.pairwise_cons.1 hs).1 x (by assumption))

/-- The last element of a sorted list is an upper bound for its members. -/
theorem le_getLast_of_sorted {L : List Nat} (hs : L.Sorted (· < ·))
    {x : Nat} (hx : x ∈ L) (h : L ≠ []) : x ≤ L.getLast h := by
  induction L with
  | nil => cases hx
  | cons y tl ih =>
    rcases List.pairwise_cons.1 hs with ⟨hy, htl⟩
    cases tl with
    | nil =>
      have : x = y := by simpa using hx
      simp [List.getLast, this]
    | cons z tl' =>
      rw [List.getLast_cons (by simp)]
      rcases hx with _ | hx
      · exact le_of_lt (hy _ (List.getLast_mem _))
      · exact ih htl (by assumption) (by simp)

/-- Forward snap: if some index entry is ≥ `s`, `resolveStart` yields the
    smallest index entry not less than `s`. -/
theorem resolveStart_spec {l : List Nat} {s : Nat}
    (hs : l.Sorted (· < ·)) (hex : ∃ d ∈ l, s ≤ d) :
    ∃ v, resolveStart l s = some v ∧ v ∈ l ∧ s ≤ v ∧
      ∀ d ∈ l, s ≤ d → v ≤ d := by
  rcases hex with ⟨d, hd, hsd⟩
  have hdL : d ∈ l.filter (fun d => decide (s ≤ d)) :=
    List.mem_filter.2 ⟨hd, by simpa using hsd⟩
  have hne : l.filter (fun d => decide (s ≤ d)) ≠ [] := by
    intro hnil
    rw [hnil] at hdL
    cases hdL
  refine ⟨(l.filter (fun d => decide (s ≤ d))).head hne, ?_, ?_, ?_, ?_⟩
  · rw [resolveStart, List.head?_eq_head hne]
  · have := List.head_mem hne
    exact (List.mem_filter.1 this).1
  · have := List.head_mem hne
    simpa using (List.mem_filter.1 this).2
  · intro d' hd' hsd'
    exact head_le_of_sorted (hs.filter _)
      (List.mem_filter.2 ⟨hd', by simpa using hsd'⟩) hne

/-- Backward snap: if some index entry is ≤ `e`, `resolveEnd` yields the
    largest index entry not greater than `e`. -/
theorem resolveEnd_spec {l : List Nat} {e : Nat}
    (hs : l.Sorted (· < ·)) (hex : ∃ d ∈ l, d ≤ e) :
    ∃ v, resolveEnd l e = some v ∧ v ∈ l ∧ v ≤ e ∧
      ∀ d ∈ l, d ≤ e → d ≤ v := by
  rcases hex with ⟨d, hd, hde⟩
  have hdL : d ∈ l.filter (fun d => decide (d ≤ e)) :=
    List.mem_filter.2 ⟨hd, by simpa using hde⟩
  have hne : l.filter (fun d => decide (d ≤ e)) ≠ [] := by
    intro hnil
    rw [hnil] at hdL
    cases hdL
  refine ⟨(l.filter (fun d => decide (d ≤ e))).getLast hne, ?_, ?_, ?_, ?_⟩
  · rw [resolveEnd, List.getLast?_eq_getLast _ hne]
  · have := List.getLast_mem hne
    exact (List.mem_filter.1 this).1
  · have := List.getLast_mem hne
    simpa using (List.mem_filter.1 this).2
  · intro d' hd' hde'
    exact le_getLast_of_sorted (hs.filter _)
      (List.mem_filter.2 ⟨hd', by simpa using hde'⟩) hne

/-- On a sorted index containing `x`, the forward snap of `x` is `x`. -/
theorem resolveStart_of_mem {l : List Nat} {x : Nat}
    (hs : l.Sorted (· < ·)) (hx : x ∈ l) :
    resolveStart l x = some x := by
  rcases resolveStart_spec hs ⟨x, hx, le_refl x⟩ with ⟨v, hv, _, hxv, hmin⟩
  have := hmin x hx (le_refl x)
  have : v = x := le_antisymm this hxv
  rw [hv, this]

/-- On a sorted index containing `x`, the backward snap of `x` is `x`. -/
theorem resolveEnd_of_mem {l : List Nat} {x : Nat}
    (hs : l.Sorted (· < ·)) (hx : x ∈ l) :
    resolveEnd l x = some x := by
  rcases resolveEnd_spec hs ⟨x, hx, le_refl x⟩ with ⟨v, hv, _, hvx, hmax⟩
  have := hmax x hx (le_refl x)
  have : v = x := le_antisymm hvx this
  rw [hv, this]

/-- The entry at the left insertion point of `s` is the forward snap of
    `s`. -/
theorem get_searchsortedLeft {l : List Nat} (s : Nat) :
    l.get? (searchsortedLeft l s) =
      (l.dropWhile (fun d => d < s)).head? := by
  set n := searchsortedLeft l s with hn
  have hlen : (l.takeWhile (fun d => decide (d < s))).length = n := hn.symm
  conv_lhs => rw [← List.takeWhile_append_dropWhile
    (p := fun d => decide (d < s)) (l := l)]
  rw [List.get?_append_right (le_of_eq hlen), hlen, Nat.sub_self]
  cases l.dropWhile (fun d => decide (d < s)) <;> rfl

/-- The entry just before the right insertion point of `e` is the backward
    snap of `e`, provided the insertion point is positive. -/
theorem get_searchsortedRight {l : List Nat} {e : Nat}
    (hs : l.Sorted (· < ·)) (h0 : 1 ≤ searchsortedRight l e) :
    l.get? (searchsortedRight l e - 1) = resolveEnd l e := by
  set n := searchsortedRight l e with hn
  have hlen : (l.takeWhile (fun d => decide (d ≤ e))).length = n := hn.symm
  have hlt : n - 1 < (l.takeWhile (fun d => decide (d ≤ e))).length := by
    omega
  conv_lhs => rw [← List.takeWhile_append_dropWhile
    (p := fun d => decide (d ≤ e)) (l := l)]
  rw [List.get?_append hlt, resolveEnd, ← takeWhile_le_eq_filter_idx e hs,
    List.get?_eq_getElem?, List.getLast?_eq_getElem?, hlen]

/-- On a non-empty index, the lower-bound check passes exactly when some
    entry is ≤ the requested start. -/
theorem belowMin_eq_false_iff {l : List Nat} (hne : l ≠ []) (s : Nat) :
    belowMin l s = false ↔ ∃ d ∈ l, d ≤ s := by
  have hsome : l.min?.isSome := by
    rw [Option.isSome_iff_ne_none]
    intro h
    exact hne (List.min?_eq_none_iff.1 h)
  rcases Option.isSome_iff_exists.1 hsome with ⟨m, hm⟩
  rcases List.min?_eq_some_iff'.1 hm with ⟨hmem, hmin⟩
  rw [belowMin, hm]
  constructor
  · intro h
    refine ⟨m, hmem, ?_⟩
    simpa using h
  · rintro ⟨d, hd, hds⟩
    simpa using le_trans (hmin d hd) hds

/-- On a non-empty index, the upper-bound check passes exactly when some
    entry is ≥ the requested end. -/
theorem aboveMax_eq_false_iff {l : List Nat} (hne : l ≠ []) (e : Nat) :
    aboveMax l e = false ↔ ∃ d ∈ l, e ≤ d := by
  have hsome : l.max?.isSome := by
    rw [Option.isSome_iff_ne_none]
    intro h
    exact hne (List.max?_eq_none_iff.1 h)
  rcases Option.isSome_iff_exists.1 hsome with ⟨m, hm⟩
  rcases List.max?_eq_some_iff'.1 hm with ⟨hmem, hmax⟩
  rw [aboveMax, hm]
  constructor
  · intro h
    refine ⟨m, hmem, ?_⟩
    simpa using h
  · rintro ⟨d, hd, hed⟩
    simpa using le_trans hed (hmax d hd)

/-- Master success-path characterization of `filter_df_by_date`: under the
    range preconditions, both endpoints snap and the result is the
    inclusive slice between the snapped endpoints. -/
theorem filter_df_by_date_ok {β : Type} {t : Table β} {s e : Nat}
    (hs : (dates t).Sorted (· < ·)) (h1 : s < e)
    (h2 : ∃ d ∈ dates t, d ≤ s) (h3 : ∃ d ∈ dates t, e ≤ d) :
    ∃ sv ev, resolveStart (dates t) s = some sv ∧
      resolveEnd (dates t) e = some ev ∧
      filter_df_by_date t s e =
        .ok (t.filter (fun r => sv ≤ r.1 ∧ r.1 ≤ ev)) := by
  have hne : dates t ≠ [] := by
    rcases h2 with ⟨d, hd, _⟩
    exact List.ne_nil_of_mem hd
  have hexS : ∃ d ∈ dates t, s ≤ d := by
    rcases h3 with ⟨d, hd, hed⟩
    exact ⟨d, hd, le_trans (le_of_lt h1) hed⟩
  have hexE : ∃ d ∈ dates t, d ≤ e := by
    rcases h2 with ⟨d, hd, hds⟩
    exact ⟨d, hd, le_trans hds (le_of_lt h1)⟩
  rcases resolveStart_spec hs hexS with ⟨sv, hsv, hsvmem, hssv, hsvmin⟩
  rcases resolveEnd_spec hs hexE with ⟨ev, hev, hevmem, heve, hevmax⟩
  refine ⟨sv, ev, hsv, hev, ?_⟩
  have hbm : belowMin (dates t) s = false := (belowMin_eq_false_iff hne s).2 h2
  have ham : aboveMax (dates t) e = false := (aboveMax_eq_false_iff hne e).2 h3
  have hrs : (if s ∈ dates t then (Except.ok s : Except PyError Nat) else
      match pyIndexGet (dates t) (searchsortedLeft (dates t) s : Int) with
      | some d => .ok d
      | none => .error .indexError) = .ok sv := by
    by_cases hmem : s ∈ dates t
    · rw [if_pos hmem]
      have hss := resolveStart_of_mem hs hmem
      rw [hsv] at hss
      injection hss with hss
      rw [hss]
    · rw [if_neg hmem]
      have h0 : (0 : Int) ≤ (searchsortedLeft (dates t) s : Int) :=
        Int.natCast_nonneg _
      have htn : ((searchsortedLeft (dates t) s : Int)).toNat =
          searchsortedLeft (dates t) s := rfl
      have hget : pyIndexGet (dates t)
          (searchsortedLeft (dates t) s : Int) = some sv := by
        rw [pyIndexGet, if_pos h0, htn, get_searchsortedLeft,
          dropWhile_lt_eq_filter_idx s hs, ← resolveStart, hsv]
      rw [hget]
  have hre : (if e ∈ dates t then (Except.ok e : Except PyError Nat) else
      match pyIndexGet (dates t)
          ((searchsortedRight (dates t) e : Int) - 1) with
      | some d => .ok d
      | none => .error .indexError) = .ok ev := by
    by_cases hmem : e ∈ dates t
    · rw [if_pos hmem]
      have hee := resolveEnd_of_mem hs hmem
      rw [hev] at hee
      injection hee with hee
      rw [hee]
    · rw [if_neg hmem]
      have hpos : 1 ≤ searchsortedRight (dates t) e :=
        searchsortedRight_pos hs hexE
      have hnn : (0 : Int) ≤ (searchsortedRight (dates t) e : Int) - 1 := by
        omega
      have htn : ((searchsortedRight (dates t) e : Int) - 1).toNat =
          searchsortedRight (dates t) e - 1 := by
        omega
      have hget : pyIndexGet (dates t)
          ((searchsortedRight (dates t) e : Int) - 1) = some ev := by
        rw [pyIndexGet, if_pos hnn, htn, get_searchsortedRight hs hpos, hev]
      rw [hget]
  rw [filter_df_by_date, if_neg (by omega), hbm, ham]
  simp only [Bool.or_self, Bool.false_eq_true, if_false, hrs, hre]
  rw [locSlice_eq_filter sv ev hs]

/-- Failing the strict-order check raises the first range error. -/
theorem filter_error_of_le {β : Type} (t : Table β) {s e : Nat} (h : e ≤ s) :
    filter_df_by_date t s e = .error (.rangeError
      "The start date must be strictly earlier than the end date.") := by
  rw [filter_df_by_date, if_pos h]

/-- Failing the containment check raises the second range error. -/
theorem filter_error_of_outside {β : Type} (t : Table β) {s e : Nat}
    (h1 : ¬ e ≤ s)
    (h2 : (belowMin (dates t) s || aboveMax (dates t) e) = true) :
    filter_df_by_date t s e = .error (.rangeError
      "The dates must be within the range of the DataFrame's index.") := by
  rw [filter_df_by_date, if_neg h1, if_pos h2]

/-! ### Claim theorems: the two-sided date filter -/

/-- C1: for a sorted table and dates start < end with start ≥ the table's
    minimum date and end ≤ its maximum date, `filter_df_by_date` resolves
    start forward to the smallest existing row date ≥ start and end
    backward to the largest existing row date ≤ end, and returns exactly
    the rows whose date lies between the resolved endpoints (the
    contiguous inclusive sub-sequence); when the resolved start exceeds the
    resolved end the result is the empty table, not an error. -/
theorem filterByDate_resolves_inclusive_slice {β : Type} (t : Table β)
    (s e : Nat) (hs : (dates t).Sorted (· < ·)) (h1 : s < e)
    (h2 : ∃ d ∈ dates t, d ≤ s) (h3 : ∃ d ∈ dates t, e ≤ d) :
    ∃ sv ev,
      resolveStart (dates t) s = some sv ∧
      resolveEnd (dates t) e = some ev ∧
      filter_df_by_date t s e =
        .ok (t.filter (fun r => sv ≤ r.1 ∧ r.1 ≤ ev)) ∧
      (ev < sv → filter_df_by_date t s e = .ok []) := by
  rcases filter_df_by_date_ok hs h1 h2 h3 with ⟨sv, ev, hsv, hev, hmain⟩
  refine ⟨sv, ev, hsv, hev, hmain, fun hlt => ?_⟩
  rw [hmain]
  have : t.filter (fun r => decide (sv ≤ r.1 ∧ r.1 ≤ ev)) = [] :=
    List.filter_eq_nil_iff.2 fun r _ => by
      simp only [decide_eq_true_eq, not_and]
      omega
  rw [this]

/-- Witness for C1, at the spec's own boundary example: rows at dates 2
    and 6 only, query [3,5]; start snaps forward to 6, end snaps backward
    to 2, and the result is the empty table rather than an error. -/
theorem filterByDate_resolves_inclusive_slice_witness :
    filter_df_by_date ([(2, 0), (6, 0)] : Table Nat) 3 5 = .ok [] := by
  rcases filterByDate_resolves_inclusive_slice ([(2, 0), (6, 0)] : Table Nat)
      3 5 (by decide) (by decide) ⟨2, by decide, by decide⟩
      ⟨6, by decide, by decide⟩ with ⟨sv, ev, hsv, hev, _, hempty⟩
  have h6 : resolveStart (dates ([(2, 0), (6, 0)] : Table Nat)) 3 =
      some 6 := by decide
  have h2 : resolveEnd (dates ([(2, 0), (6, 0)] : Table Nat)) 5 =
      some 2 := by decide
  have hsv6 : sv = 6 := by
    have := h6.symm.trans hsv
    injection this with h
    omega
  have hev2 : ev = 2 := by
    have := h2.symm.trans hev
    injection this with h
    omega
  exact hempty (by omega)

/-- C2: on a sorted non-empty table, `filter_df_by_date` succeeds exactly
    when start < end, start ≥ the table's minimum date and end ≤ its
    maximum date; every failure is a `RangeError` (a `ValueError` at one of
    the two range checks), never any other exception. -/
theorem filterByDate_rangeError_iff {β : Type} (t : Table β)
    (s e dmin dmax : Nat) (hs : (dates t).Sorted (· < ·))
    (hmin : (dates t).min? = some dmin)
    (hmax : (dates t).max? = some dmax) :
    ((∃ r, filter_df_by_date t s e = .ok r) ↔
      (s < e ∧ dmin ≤ s ∧ e ≤ dmax)) ∧
    (∀ er, filter_df_by_date t s e = .error er →
      ∃ msg, er = .rangeError msg) := by
  rcases List.min?_eq_some_iff'.1 hmin with ⟨hminmem, hminle⟩
  rcases List.max?_eq_some_iff'.1 hmax with ⟨hmaxmem, hmaxle⟩
  by_cases hc1 : s < e
  · by_cases hc2 : dmin ≤ s
    · by_cases hc3 : e ≤ dmax
      · rcases filter_df_by_date_ok hs hc1 ⟨dmin, hminmem, hc2⟩
          ⟨dmax, hmaxmem, hc3⟩ with ⟨sv, ev, _, _, hmain⟩
        constructor
        · exact ⟨fun _ => ⟨hc1, hc2, hc3⟩, fun _ => ⟨_, hmain⟩⟩
        · intro er her
          rw [hmain] at her
          cases her
      · have hbad : aboveMax (dates t) e = true := by
          rw [aboveMax, hmax]
          simpa using Nat.not_le.1 hc3
        have hnle : ¬ e ≤ s := by omega
        have herr := filter_error_of_outside t hnle
          (by rw [hbad, Bool.or_true])
        constructor
        · constructor
          · rintro ⟨r, hr⟩
            rw [herr] at hr
            cases hr
          · rintro ⟨_, _, h⟩
            exact absurd h hc3
        · intro er her
          rw [herr] at her
          injection her with her
          exact ⟨_, her.symm⟩
    · have hbad : belowMin (dates t) s = true := by
        rw [belowMin, hmin]
        simpa using Nat.not_le.1 hc2
      have hnle : ¬ e ≤ s := by omega
      have herr := filter_error_of_outside t hnle
        (by rw [hbad, Bool.true_or])
      constructor
      · constructor
        · rintro ⟨r, hr⟩
          rw [herr] at hr
          cases hr
        · rintro ⟨_, h, _⟩
          exact absurd h hc2
      · intro er her
        rw [herr] at her
        injection her with her
        exact ⟨_, her.symm⟩
  · have herr := filter_error_of_le t (Nat.not_lt.1 hc1)
    constructor
    · constructor
      · rintro ⟨r, hr⟩
        rw [herr] at hr
        cases hr
      · rintro ⟨h, _, _⟩
        exact absurd h hc1
    · intro er her
      rw [herr] at her
      injection her with her
      exact ⟨_, her.symm⟩

/-- Witness for C2: on the table with dates {1,3,5}, the query [3,3]
    (start = end) fails, the query [0,3] (start below the minimum) fails,
    and the query [1,5] succeeds. -/
theorem filterByDate_rangeError_iff_witness :
    (¬ ∃ r, filter_df_by_date ([(1, 0), (3, 0), (5, 0)] : Table Nat) 3 3 =
      .ok r) ∧
    (¬ ∃ r, filter_df_by_date ([(1, 0), (3, 0), (5, 0)] : Table Nat) 0 3 =
      .ok r) ∧
    (∃ r, filter_df_by_date ([(1, 0), (3, 0), (5, 0)] : Table Nat) 1 5 =
      .ok r) := by
  refine ⟨?_, ?_, ?_⟩
  · have h := (filterByDate_rangeError_iff
      ([(1, 0), (3, 0), (5, 0)] : Table Nat) 3 3 1 5 (by decide) (by decide)
      (by decide)).1
    intro hr
    have := h.1 hr
    omega
  · have h := (filterByDate_rangeError_iff
      ([(1, 0), (3, 0), (5, 0)] : Table Nat) 0 3 1 5 (by decide) (by decide)
      (by decide)).1
    intro hr
    have := h.1 hr
    omega
  · exact (filterByDate_rangeError_iff
      ([(1, 0), (3, 0), (5, 0)] : Table Nat) 1 5 1 5 (by decide) (by decide)
      (by decide)).1.2 ⟨by omega, by omega, by omega⟩

/-- C9: once the range checks pass (start < end, start ≥ minimum date,
    end ≤ maximum date, table sorted and non-empty), the snapping lookup
    positions — the left insertion point of start and the predecessor of
    the right insertion point of end — are within the index bounds, and
    `filter_df_by_date` never fails with an `IndexError`. -/
theorem filterByDate_snap_indices_in_bounds {β : Type} (t : Table β)
    (s e : Nat) (hs : (dates t).Sorted (· < ·)) (h1 : s < e)
    (h2 : ∃ d ∈ dates t, d ≤ s) (h3 : ∃ d ∈ dates t, e ≤ d) :
    searchsortedLeft (dates t) s < (dates t).length ∧
    1 ≤ searchsortedRight (dates t) e ∧
    searchsortedRight (dates t) e - 1 < (dates t).length ∧
    filter_df_by_date t s e ≠ .error .indexError := by
  have hexS : ∃ d ∈ dates t, s ≤ d := by
    rcases h3 with ⟨d, hd, hed⟩
    exact ⟨d, hd, le_trans (le_of_lt h1) hed⟩
  have hexE : ∃ d ∈ dates t, d ≤ e := by
    rcases h2 with ⟨d, hd, hds⟩
    exact ⟨d, hd, le_trans hds (le_of_lt h1)⟩
  have hL := searchsortedLeft_lt_length hexS
  have hR1 := searchsortedRight_pos hs hexE
  have hRle : searchsortedRight (dates t) e ≤ (dates t).length :=
    (List.takeWhile_sublist _).length_le
  refine ⟨hL, hR1, by omega, ?_⟩
  rcases filter_df_by_date_ok hs h1 h2 h3 with ⟨sv, ev, _, _, hmain⟩
  rw [hmain]
  intro h
  cases h

/-- Witness for C9 on the table with dates {1,3,5} and the query [2,4]
    (both endpoints in gaps). -/
theorem filterByDate_snap_indices_in_bounds_witness :
    searchsortedLeft (dates ([(1, 0), (3, 0), (5, 0)] : Table Nat)) 2 <
      (dates ([(1, 0), (3, 0), (5, 0)] : Table Nat)).length ∧
    1 ≤ searchsortedRight (dates ([(1, 0), (3, 0), (5, 0)] : Table Nat)) 4 ∧
    searchsortedRight (dates ([(1, 0), (3, 0), (5, 0)] : Table Nat)) 4 - 1 <
      (dates ([(1, 0), (3, 0), (5, 0)] : Table Nat)).length ∧
    filter_df_by_date ([(1, 0), (3, 0), (5, 0)] : Table Nat) 2 4 ≠
      .error .indexError :=
  filterByDate_snap_indices_in_bounds ([(1, 0), (3, 0), (5, 0)] : Table Nat)
    2 4 (by decide) (by decide) ⟨1, by decide, by decide⟩
    ⟨5, by decide, by decide⟩

/-- C7: on a sorted table whose dates include both endpoints exactly, a
    successful `filter_df_by_date` is idempotent — filtering the result
    again with the same endpoints succeeds and returns it unchanged. -/
theorem filterByDate_idempotent_on_exact_dates {β : Type} (t r : Table β)
    (s e : Nat) (hs : (dates t).Sorted (· < ·)) (hsm : s ∈ dates t)
    (hem : e ∈ dates t) (hinner : filter_df_by_date t s e = .ok r) :
    filter_df_by_date r s e = .ok r := by
  have h1 : s < e := by
    by_contra h
    rw [filter_error_of_le t (Nat.not_lt.1 h)] at hinner
    cases hinner
  rcases filter_df_by_date_ok hs h1 ⟨s, hsm, le_refl s⟩ ⟨e, hem, le_refl e⟩
    with ⟨sv, ev, hsv, hev, hmain⟩
  have hsvs : sv = s := by
    have := (resolveStart_of_mem hs hsm).symm.trans hsv
    injection this with h
    omega
  have heve : ev = e := by
    have := (resolveEnd_of_mem hs hem).symm.trans hev
    injection this with h
    omega
  rw [hsvs, heve] at hmain
  rw [hinner] at hmain
  injection hmain with hmain
  have hrsorted : (dates r).Sorted (· < ·) := by
    rw [hmain]
    exact (List.pairwise_map).2 ((sortedRows hs).sublist
      (List.filter_sublist t))
  have hsmr : s ∈ dates r := by
    rcases List.mem_map.1 hsm with ⟨row, hrow, hfst⟩
    refine List.mem_map.2 ⟨row, ?_, hfst⟩
    rw [hmain]
    refine List.mem_filter.2 ⟨hrow, ?_⟩
    simp only [decide_eq_true_eq]
    rw [hfst]
    exact ⟨le_refl s, le_of_lt h1⟩
  have hemr : e ∈ dates r := by
    rcases List.mem_map.1 hem with ⟨row, hrow, hfst⟩
    refine List.mem_map.2 ⟨row, ?_, hfst⟩
    rw [hmain]
    refine List.mem_filter.2 ⟨hrow, ?_⟩
    simp only [decide_eq_true_eq]
    rw [hfst]
    exact ⟨le_of_lt h1, le_refl e⟩
  rcases filter_df_by_date_ok hrsorted h1 ⟨s, hsmr, le_refl s⟩
    ⟨e, hemr, le_refl e⟩ with ⟨sv', ev', hsv', hev', hmain'⟩
  have hsvs' : sv' = s := by
    have := (resolveStart_of_mem hrsorted hsmr).symm.trans hsv'
    injection this with h
    omega
  have heve' : ev' = e := by
    have := (resolveEnd_of_mem hrsorted hemr).symm.trans hev'
    injection this with h
    omega
  rw [hsvs', heve'] at hmain'
  rw [hmain']
  have : r.filter (fun row => decide (s ≤ row.1 ∧ row.1 ≤ e)) = r :=
    List.filter_eq_self.2 fun row hrow => by
      rw [hmain] at hrow
      exact (List.mem_filter.1 hrow).2
  rw [this]

/-- Witness for C7: dates {1,3,5}, exact endpoints 1 and 3; the inner
    filter returns the first two rows and refiltering them is the
    identity. -/
theorem filterByDate_idempotent_on_exact_dates_witness :
    filter_df_by_date ([(1, 10), (3, 30)] : Table Nat) 1 3 =
      .ok [(1, 10), (3, 30)] :=
  filterByDate_idempotent_on_exact_dates
    ([(1, 10), (3, 30), (5, 50)] : Table Nat) [(1, 10), (3, 30)] 1 3
    (by decide) (by decide) (by decide) (by rfl)

/-! ### Claim theorems: download, retrieve, history -/

/-- C4: `download` by case on the present bounds: both bounds delegate to
    the two-sided filter (with its error conditions); start alone is a
    plain unvalidated truncation keeping the rows with date ≥ start (hence
    a start beyond all data yields an empty table, no error); end alone
    keeps the rows with date ≤ end; no bounds returns the loaded table
    unchanged. -/
theorem download_case_analysis {V : Type} (d : DF V) (s e : Nat)
    (hs : (dates d.rows).Sorted (· < ·)) :
    download d (some s) (some e) = filterDF d s e ∧
    download d (some s) none =
      .ok ⟨d.colNames, d.rows.filter (fun r => s ≤ r.1)⟩ ∧
    ((∀ dt ∈ dates d.rows, dt < s) →
      download d (some s) none = .ok ⟨d.colNames, []⟩) ∧
    download d none (some e) =
      .ok ⟨d.colNames, d.rows.filter (fun r => r.1 ≤ e)⟩ ∧
    download d none none = .ok d := by
  have hfrom : download d (some s) none =
      .ok ⟨d.colNames, locFrom d.rows s⟩ := rfl
  refine ⟨rfl, ?_, ?_, ?_, rfl⟩
  · rw [hfrom, locFrom_eq_filter s hs]
  · intro hall
    rw [hfrom, locFrom_eq_filter s hs]
    have : d.rows.filter (fun r => decide (s ≤ r.1)) = [] :=
      List.filter_eq_nil_iff.2 fun r hr => by
        simp only [decide_eq_true_eq]
        have := hall r.1 (List.mem_map.2 ⟨r, hr, rfl⟩)
        omega
    rw [this]
  · have hto : download d none (some e) =
        .ok ⟨d.colNames, locTo d.rows e⟩ := rfl
    rw [hto, locTo_eq_filter e hs]

/-- Witness for C4 on a two-row frame with dates {1,3}: start-only
    truncation from 2 keeps the second row, from 99 keeps nothing, end-only
    truncation to 2 keeps the first row, and no bounds is the identity. -/
theorem download_case_analysis_witness :
    download (pricesDF [(1, 10), (3, 30)]) (some 2) (some 3) =
      filterDF (pricesDF [(1, 10), (3, 30)]) 2 3 ∧
    download (pricesDF [(1, 10), (3, 30)]) (some 2) none =
      .ok ⟨(pricesDF [(1, 10), (3, 30)]).colNames,
        (pricesDF [(1, 10), (3, 30)]).rows.filter (fun r => 2 ≤ r.1)⟩ ∧
    download (pricesDF [(1, 10), (3, 30)]) (some 99) none =
      .ok ⟨(pricesDF [(1, 10), (3, 30)]).colNames, []⟩ ∧
    download (pricesDF [(1, 10), (3, 30)]) none (some 2) =
      .ok ⟨(pricesDF [(1, 10), (3, 30)]).colNames,
        (pricesDF [(1, 10), (3, 30)]).rows.filter (fun r => r.1 ≤ 2)⟩ ∧
    download (pricesDF [(1, 10), (3, 30)]) none none =
      .ok (pricesDF [(1, 10), (3, 30)]) := by
  have h2 := download_case_analysis (pricesDF [(1, 10), (3, 30)]) 2 3
    (by decide)
  have h99 := download_case_analysis (pricesDF [(1, 10), (3, 30)]) 99 2
    (by decide)
  exact ⟨h2.1, h2.2.1, h99.2.2.1 (by decide), h99.2.2.2.1, h2.2.2.2.2⟩

/-- C8: `retrieve_etf_data` equals the composition of `process_etf_data`
    (the spec's load) with `filter_df_by_date` (the spec's filterByDate) —
    same table on success, and exactly the same error on failure. -/
theorem retrieve_eq_load_then_filter {V : Type} (p : List (Nat × V))
    (w : List (Nat × List (String × V))) (s e : Nat) :
    retrieve_etf_data p w s e = retrieveSpec p w s e ∧
    retrieve_etf_data p w s e = filterDF (process_etf_data p w) s e ∧
    (∀ er, retrieve_etf_data p w s e = .error er ↔
      filterDF (process_etf_data p w) s e = .error er) :=
  ⟨rfl, rfl, fun _ => Iff.rfl⟩

/-- C10: `history` on an empty ticker list returns the empty table without
    raising: validation finds no offender, the loop body never runs, and
    the empty accumulator is returned. -/
theorem history_empty_tickers_ok {V : Type} (allow : List String)
    (loadf : String → DF V) (s? e? : Option Nat) :
    history allow loadf ([] : List String) s? e? = .ok emptyDF := rfl

/-! ### Error taxonomy helpers for `history` -/

theorem resolve_branch_error {l : List Nat} {x : Nat} {i : Int}
    {er : PyError}
    (h : (if x ∈ l then (Except.ok x : Except PyError Nat) else
      match pyIndexGet l i with
      | some d => .ok d
      | none => .error .indexError) = .error er) : er = .indexError := by
  split at h
  · cases h
  · cases hpi : pyIndexGet l i with
    | some d =>
      rw [hpi] at h
      cases h
    | none =>
      rw [hpi] at h
      injection h with h
      exact h.symm

/-- Every failure of the two-sided filter is a range error or an index
    error. -/
theorem filter_error_cases {β : Type} (t : Table β) (s e : Nat)
    (er : PyError) (h : filter_df_by_date t s e = .error er) :
    (∃ msg, er = .rangeError msg) ∨ er = .indexError := by
  rw [filter_df_by_date] at h
  split at h
  · injection h with h
    exact Or.inl ⟨_, h.symm⟩
  · split at h
    · injection h with h
      exact Or.inl ⟨_, h.symm⟩
    · simp only [] at h
      split at h
      · cases h
      · rename_i rs re er' heq
        injection h with h
        rw [← h]
        exact Or.inr (resolve_branch_error heq)
      · rename_i rs re er' heq hx
        injection h with h
        rw [← h]
        exact Or.inr (resolve_branch_error heq)

/-- Every failure of `filterDF` comes from the underlying filter. -/
theorem filterDF_error_cases {V : Type} (d : DF V) (s e : Nat)
    (er : PyError) (h : filterDF d s e = .error er) :
    (∃ msg, er = .rangeError msg) ∨ er = .indexError := by
  rw [filterDF] at h
  cases hf : filter_df_by_date d.rows s e with
  | ok v =>
    rw [hf] at h
    cases h
  | error er' =>
    rw [hf] at h
    injection h with h
    rw [← h]
    exact filter_error_cases d.rows s e er' hf

/-- Every failure of `download` comes from the two-sided filter. -/
theorem download_error_cases {V : Type} (d : DF V) (s? e? : Option Nat)
    (er : PyError) (h : download d s? e? = .error er) :
    (∃ msg, er = .rangeError msg) ∨ er = .indexError := by
  cases s? with
  | none =>
    cases e? with
    | none => cases h
    | some e => cases h
  | some s =>
    cases e? with
    | none => cases h
    | some e => exact filterDF_error_cases d s e er h

/-- Every failure of `selectRename` is a key error. -/
theorem selectRename_error_cases {V : Type} (d : DF V) (c n : String)
    (er : PyError) (h : selectRename d c n = .error er) :
    ∃ col, er = .keyError col := by
  rw [selectRename] at h
  split at h
  · injection h with h
    exact ⟨_, h.symm⟩
  · cases h

/-- The per-ticker loop of `history` never raises a validation error. -/
theorem historyLoop_no_validationError {V : Type} (loadf : String → DF V)
    (s? e? : Option Nat) (acc : DF V) (ts : List String)
    (inv : List String) :
    historyLoop loadf s? e? acc ts ≠ .error (.validationError inv) := by
  induction ts generalizing acc with
  | nil =>
    intro h
    cases h
  | cons tk rest ih =>
    intro h
    rw [historyLoop] at h
    cases hdl : download (loadf tk) s? e? with
    | error er =>
      simp only [hdl] at h
      injection h with h
      rcases download_error_cases (loadf tk) s? e? er hdl with ⟨msg, hm⟩ | hm
      · rw [hm] at h
        cases h
      · rw [hm] at h
        cases h
    | ok df =>
      simp only [hdl] at h
      cases hsr : selectRename df "Close Price" tk with
      | error er =>
        simp only [hsr] at h
        injection h with h
        rcases selectRename_error_cases df "Close Price" tk er hsr
          with ⟨col, hm⟩
        rw [hm] at h
        cases h
      | ok col =>
        simp only [hsr] at h
        exact ih (concatCols acc col) h

/-- C6: `history` fails with a validation error exactly when some
    requested ticker is outside the allow-list; the error payload is the
    full list of offenders (batch validation), and when validation fails
    the result does not depend on the data-loading function at all — no
    download is attempted. -/
theorem history_validationError_iff {V : Type} (allow : List String)
    (loadf loadf' : String → DF V) (ts : List String)
    (s? e? : Option Nat) :
    ((∃ inv, history allow loadf ts s? e? =
        .error (.validationError inv)) ↔ ∃ tk ∈ ts, tk ∉ allow) ∧
    (∀ inv, history allow loadf ts s? e? =
        .error (.validationError inv) →
      inv = ts.filter (fun tk => decide (¬ tk ∈ allow))) ∧
    ((∃ tk ∈ ts, tk ∉ allow) →
      history allow loadf ts s? e? = history allow loadf' ts s? e?) := by
  by_cases hinv : (ts.filter (fun tk => decide (¬ tk ∈ allow))).isEmpty
  · have hloop : history allow loadf ts s? e? =
        historyLoop loadf s? e? emptyDF ts := by
      rw [history, if_pos hinv]
    have hnone : ¬ ∃ tk ∈ ts, tk ∉ allow := by
      rintro ⟨tk, htk, hna⟩
      have : tk ∈ ts.filter (fun tk => decide (¬ tk ∈ allow)) :=
        List.mem_filter.2 ⟨htk, by simpa using hna⟩
      rw [List.isEmpty_iff] at hinv
      rw [hinv] at this
      cases this
    refine ⟨⟨?_, fun h => absurd h hnone⟩, ?_, fun h => absurd h hnone⟩
    · rintro ⟨inv, hi⟩
      rw [hloop] at hi
      exact absurd hi (historyLoop_no_validationError _ _ _ _ _ _)
    · intro inv hi
      rw [hloop] at hi
      exact absurd hi (historyLoop_no_validationError _ _ _ _ _ _)
  · have herr : ∀ (lf : String → DF V), history allow lf ts s? e? =
        .error (.validationError
          (ts.filter (fun tk => decide (¬ tk ∈ allow)))) := by
      intro lf
      rw [history, if_neg hinv]
    have hne : ts.filter (fun tk => decide (¬ tk ∈ allow)) ≠ [] := by
      intro h
      rw [h] at hinv
      exact hinv rfl
    rcases List.exists_mem_of_ne_nil _ hne with ⟨tk, htk⟩
    rcases List.mem_filter.1 htk with ⟨hts, hna⟩
    refine ⟨⟨fun _ => ⟨tk, hts, by simpa using hna⟩,
      fun _ => ⟨_, herr loadf⟩⟩, ?_, fun _ => (herr loadf).trans
        (herr loadf').symm⟩
    intro inv hi
    rw [herr loadf] at hi
    injection hi with hi
    injection hi with hi
    exact hi.symm

/-- Witness for C6: requesting the unknown ticker "NotATicker" against the
    default allow-list fails with a validation error naming exactly
    "NotATicker". -/
theorem history_validationError_iff_witness :
    history defaultTickers (fun _ => (emptyDF : DF Nat)) ["NotATicker"]
      none none = .error (.validationError ["NotATicker"]) := by
  have h := history_validationError_iff defaultTickers
    (fun _ => (emptyDF : DF Nat)) (fun _ => emptyDF) ["NotATicker"]
    none none
  rcases h.1.2 ⟨"NotATicker", by decide, by decide⟩ with ⟨inv, hinv⟩
  have heq := h.2.1 inv hinv
  have : ["NotATicker"].filter
      (fun tk => decide (¬ tk ∈ defaultTickers)) = ["NotATicker"] := by
    decide
  rw [hinv, heq, this]

/-! ### Lookup and union-index lemmas -/

theorem dates_map_key {γ : Type} (U : List Nat) (f : Nat → γ) :
    dates (U.map (fun dt => (dt, f dt))) = U := by
  induction U with
  | nil => rfl
  | cons d rest ih => simpa [dates] using ih

theorem dates_map_payload {β γ : Type} (l : Table β) (g : Nat × β → γ) :
    dates (l.map (fun r => (r.1, g r))) = dates l := by
  rw [dates, dates, List.map_map]
  rfl

theorem lookup_map_key {γ : Type} (U : List Nat) (f : Nat → γ) (k : Nat) :
    (U.map (fun dt => (dt, f dt))).lookup k =
      if k ∈ U then some (f k) else none := by
  induction U with
  | nil => rfl
  | cons d rest ih =>
    rw [List.map_cons, List.lookup_cons]
    by_cases h : k = d
    · subst h
      simp
    · have hbeq : (k == d) = false := beq_false_of_ne h
      rw [hbeq]
      simp only [List.mem_cons]
      rw [ih]
      by_cases hk : k ∈ rest <;> simp [hk, h]

theorem lookup_map_value {α β γ : Type} [BEq α] (l : List (α × β))
    (g : β → γ) (k : α) :
    (l.map (fun r => (r.1, g r.2))).lookup k = (l.lookup k).map g := by
  induction l with
  | nil => rfl
  | cons r tl ih =>
    rcases r with ⟨a, b⟩
    simp only [List.map_cons, List.lookup_cons]
    cases hk : k == a
    · simpa [hk] using ih
    · simp [hk]

theorem lookup_eq_none_of_not_mem {β : Type} {l : Table β} {k : Nat}
    (h : k ∉ dates l) : l.lookup k = none := by
  induction l with
  | nil => rfl
  | cons r tl ih =>
    have hk : k ≠ r.1 := fun he => h (by rw [he]; exact List.mem_cons_self _ _)
    have htl : k ∉ dates tl := fun hm => h (List.mem_cons_of_mem _ hm)
    cases r with
    | mk a b =>
      rw [List.lookup_cons, beq_false_of_ne hk]
      exact ih htl

/-- A date absent from a column's slice contributes the NaN marker. -/
theorem cellOf_eq_none_of_not_mem {V : Type} {c : DF V} {dt : Nat}
    (h : dt ∉ dates c.rows) : cellOf c dt = none := by
  rw [cellOf, lookup_eq_none_of_not_mem h]

theorem mem_sortedUnion {i1 i2 : List Nat} {x : Nat} :
    x ∈ sortedUnion i1 i2 ↔ x ∈ i1 ∨ x ∈ i2 := by
  rw [sortedUnion, (List.mergeSort_perm _ _).mem_iff, List.mem_append]
  by_cases h : x ∈ i1
  · simp [h]
  · simp [h]

theorem sorted_sortedUnion {i1 i2 : List Nat} (h1 : i1.Nodup)
    (h2 : i2.Nodup) : (sortedUnion i1 i2).Sorted (· < ·) := by
  have hle : (sortedUnion i1 i2).Sorted (· ≤ ·) :=
    List.sorted_mergeSort' _
  have hnd : (sortedUnion i1 i2).Nodup := by
    rw [sortedUnion, (List.mergeSort_perm _ _).nodup_iff]
    refine List.Nodup.append h1 (h2.filter _) ?_
    intro x hx1 hx2
    rcases List.mem_filter.1 hx2 with ⟨_, hdec⟩
    simp only [decide_eq_true_eq] at hdec
    exact hdec hx1
  exact hle.lt_of_le hnd

theorem mem_concatIndex {i1 i2 : List Nat} {x : Nat} :
    x ∈ concatIndex i1 i2 ↔ x ∈ i1 ∨ x ∈ i2 := by
  rw [concatIndex]
  split
  · rename_i heq
    rw [← heq]
    exact ⟨Or.inl, fun h => h.elim id id⟩
  · exact mem_sortedUnion

theorem sorted_concatIndex {i1 i2 : List Nat} (h1 : i1.Sorted (· < ·))
    (h2 : i2.Sorted (· < ·)) : (concatIndex i1 i2).Sorted (· < ·) := by
  rw [concatIndex]
  split
  · exact h1
  · exact sorted_sortedUnion h1.nodup h2.nodup

/-- Two strictly sorted lists with the same members are equal. -/
theorem sorted_lt_ext {u v : List Nat} (hu : u.Sorted (· < ·))
    (hv : v.Sorted (· < ·)) (h : ∀ x, x ∈ u ↔ x ∈ v) : u = v := by
  haveI : IsAntisymm Nat (· < ·) :=
    ⟨fun a b hab hba => absurd hab (by omega)⟩
  exact List.eq_of_perm_of_sorted
    ((List.perm_ext_iff_of_nodup hu.nodup hv.nodup).2 h) hu hv

/-! ### The pd.concat characterization -/

theorem reindexRow_head {V : Type} (names : List String) (k : Nat)
    (v : List (Option V)) (tl : Table (List (Option V))) :
    reindexRow ⟨names, (k, v) :: tl⟩ k = v := by
  rw [reindexRow]
  simp [List.lookup_cons]

theorem reindexRow_cons_ne {V : Type} (names : List String) (k : Nat)
    (v : List (Option V)) (tl : Table (List (Option V))) (dt : Nat)
    (h : dt ≠ k) :
    reindexRow ⟨names, (k, v) :: tl⟩ dt = reindexRow ⟨names, tl⟩ dt := by
  rw [reindexRow, reindexRow]
  simp [List.lookup_cons, beq_false_of_ne h]

/-- Positional column concatenation over equal, duplicate-free indexes
    agrees with lookup-based reindexing. -/
theorem zipWith_eq_map_reindex {V : Type} (names1 names2 : List String)
    (l1 l2 : Table (List (Option V))) (heq : dates l1 = dates l2)
    (hnd : (dates l1).Nodup) :
    l1.zipWith (fun r1 r2 => (r1.1, r1.2 ++ r2.2)) l2 =
      (dates l1).map (fun dt =>
        (dt, reindexRow ⟨names1, l1⟩ dt ++ reindexRow ⟨names2, l2⟩ dt)) := by
  induction l1 generalizing l2 with
  | nil =>
    cases l2 with
    | nil => rfl
    | cons r tl => cases heq
  | cons r1 tl1 ih =>
    cases l2 with
    | nil => cases heq
    | cons r2 tl2 =>
      rcases r1 with ⟨k1, v1⟩
      rcases r2 with ⟨k2, v2⟩
      have hk : k1 = k2 := by
        have := congrArg List.head? heq
        simpa [dates] using this
      have htl : dates tl1 = dates tl2 := by
        have := congrArg List.tail heq
        simpa [dates] using this
      subst hk
      have hk1 : k1 ∉ dates tl1 := by
        intro hmem
        exact (List.nodup_cons.1 hnd).1 hmem
      have hnd' : (dates tl1).Nodup := (List.nodup_cons.1 hnd).2
      rw [List.zipWith_cons_cons, ih tl2 htl hnd']
      show _ = ((k1 :: dates tl1).map fun dt =>
        (dt, reindexRow ⟨names1, (k1, v1) :: tl1⟩ dt ++
          reindexRow ⟨names2, (k1, v2) :: tl2⟩ dt))
      rw [List.map_cons, reindexRow_head, reindexRow_head]
      refine congrArg₂ _ rfl (List.map_congr_left fun dt hdt => ?_)
      have hne : dt ≠ k1 := fun h => hk1 (h ▸ hdt)
      rw [reindexRow_cons_ne _ _ _ _ _ hne, reindexRow_cons_ne _ _ _ _ _ hne]

/-- Master characterization of `pd.concat(axis=1)` on duplicate-free
    indexes: the result is indexed by `concatIndex` and every row is the
    two reindexed sides appended. -/
theorem concatCols_eq {V : Type} (d1 d2 : DF V)
    (h1 : (dates d1.rows).Nodup) (h2 : (dates d2.rows).Nodup) :
    concatCols d1 d2 = ⟨d1.colNames ++ d2.colNames,
      (concatIndex (dates d1.rows) (dates d2.rows)).map
        (fun dt => (dt, reindexRow d1 dt ++ reindexRow d2 dt))⟩ := by
  rw [concatCols, concatIndex]
  split
  · rename_i heq
    rcases d1 with ⟨names1, l1⟩
    rcases d2 with ⟨names2, l2⟩
    simp only [DF.mk.injEq, true_and]
    exact zipWith_eq_map_reindex names1 names2 l1 l2 heq h1
  · rfl

/-! ### The load (process_etf_data) union join -/

theorem pricesDF_lookup {V : Type} (p : List (Nat × V)) (dt : Nat) :
    (pricesDF p).rows.lookup dt = (p.lookup dt).map (fun v => [some v]) :=
  lookup_map_value p (fun v => [some v]) dt

theorem weightsDF_lookup {V : Type} (w : List (Nat × List (String × V)))
    (dt : Nat) :
    (weightsDF w).rows.lookup dt = (w.lookup dt).map
      (fun rr => (weightKeys w).map (fun k => rr.lookup k)) :=
  lookup_map_value w (fun rr => (weightKeys w).map (fun k => rr.lookup k)) dt

theorem reindexRow_pricesDF {V : Type} (p : List (Nat × V)) (dt : Nat) :
    reindexRow (pricesDF p) dt = priceCells p dt := by
  rw [reindexRow, pricesDF_lookup, priceCells]
  cases p.lookup dt <;> rfl

theorem reindexRow_weightsDF {V : Type}
    (w : List (Nat × List (String × V))) (dt : Nat) :
    reindexRow (weightsDF w) dt = weightCells w dt := by
  rw [reindexRow, weightsDF_lookup, weightCells]
  cases w.lookup dt <;> rfl

theorem mem_weightKeys_aux {V : Type} (w : List (Nat × List (String × V))) :
    ∀ (acc : List String) (x : String),
      (x ∈ w.foldl (fun acc row =>
        acc ++ (row.2.map Prod.fst).filter (fun k => decide (¬ k ∈ acc)))
          acc) ↔
        x ∈ acc ∨ ∃ row ∈ w, x ∈ row.2.map Prod.fst := by
  induction w with
  | nil => simp
  | cons row rest ih =>
    intro acc x
    rw [List.foldl_cons, ih]
    simp only [List.mem_append, List.mem_filter, List.mem_cons,
      decide_eq_true_eq]
    constructor
    · rintro (((h | ⟨h, _⟩) | ⟨r, hr, hx⟩))
      · exact Or.inl h
      · exact Or.inr ⟨row, Or.inl rfl, h⟩
      · exact Or.inr ⟨r, Or.inr hr, hx⟩
    · rintro (h | ⟨r, (rfl | hr), hx⟩)
      · exact Or.inl (Or.inl h)
      · by_cases hacc : x ∈ acc
        · exact Or.inl (Or.inl hacc)
        · exact Or.inl (Or.inr ⟨hx, hacc⟩)
      · exact Or.inr ⟨r, hr, hx⟩

theorem nodup_weightKeys_aux {V : Type}
    (w : List (Nat × List (String × V)))
    (hrows : ∀ row ∈ w, (row.2.map Prod.fst).Nodup) :
    ∀ acc : List String, acc.Nodup →
      (w.foldl (fun acc row =>
        acc ++ (row.2.map Prod.fst).filter (fun k => decide (¬ k ∈ acc)))
          acc).Nodup := by
  induction w with
  | nil =>
    intro acc hacc
    exact hacc
  | cons row rest ih =>
    intro acc hacc
    rw [List.foldl_cons]
    refine ih (fun r hr => hrows r (List.mem_cons_of_mem _ hr)) _ ?_
    refine List.Nodup.append hacc
      ((hrows row (List.mem_cons_self _ _)).filter _) ?_
    intro x hx1 hx2
    rcases List.mem_filter.1 hx2 with ⟨_, hdec⟩
    simp only [decide_eq_true_eq] at hdec
    exact hdec hx1

theorem mem_weightKeys {V : Type} {w : List (Nat × List (String × V))}
    {x : String} :
    x ∈ weightKeys w ↔ ∃ row ∈ w, x ∈ row.2.map Prod.fst := by
  rw [weightKeys, mem_weightKeys_aux]
  simp

theorem nodup_weightKeys {V : Type} {w : List (Nat × List (String × V))}
    (hrows : ∀ row ∈ w, (row.2.map Prod.fst).Nodup) :
    (weightKeys w).Nodup :=
  nodup_weightKeys_aux w hrows [] List.nodup_nil

/-- C3: for chronologically keyed datasets (Python dicts have unique keys;
    the persisted files list one entry per trading day in date order),
    `process_etf_data` is the union join of the price and weight datasets:
    a strictly ascending duplicate-free date index containing exactly the
    dates of either source, a "Close Price" column first plus one column
    per distinct weight key, and every row holding the price cells and
    weight cells of its date — with the explicit NaN marker where a source
    has no entry for that date. -/
theorem load_union_join_sorted {V : Type} (p : List (Nat × V))
    (w : List (Nat × List (String × V)))
    (hp : (dates p).Sorted (· < ·)) (hw : (dates w).Sorted (· < ·))
    (hrows : ∀ row ∈ w, (row.2.map Prod.fst).Nodup) :
    (dates (process_etf_data p w).rows).Sorted (· < ·) ∧
    (dates (process_etf_data p w).rows).Nodup ∧
    (∀ x, x ∈ dates (process_etf_data p w).rows ↔
      (x ∈ dates p ∨ x ∈ dates w)) ∧
    (process_etf_data p w).colNames = "Close Price" :: weightKeys w ∧
    (weightKeys w).Nodup ∧
    (∀ k, k ∈ weightKeys w ↔ ∃ row ∈ w, k ∈ row.2.map Prod.fst) ∧
    (∀ dt ∈ dates (process_etf_data p w).rows,
      (process_etf_data p w).rows.lookup dt =
        some (priceCells p dt ++ weightCells w dt)) := by
  have hdP : dates (pricesDF p).rows = dates p :=
    dates_map_payload p (fun r => [some r.2])
  have hdW : dates (weightsDF w).rows = dates w :=
    dates_map_payload w (fun r => (weightKeys w).map (fun k => r.2.lookup k))
  have hmain := concatCols_eq (pricesDF p) (weightsDF w)
    (by rw [hdP]; exact hp.nodup) (by rw [hdW]; exact hw.nodup)
  rw [hdP, hdW] at hmain
  have hproc : process_etf_data p w = ⟨"Close Price" :: weightKeys w,
      (concatIndex (dates p) (dates w)).map (fun dt =>
        (dt, priceCells p dt ++ weightCells w dt))⟩ := by
    rw [process_etf_data, hmain]
    refine congrArg₂ _ rfl (List.map_congr_left fun dt _ => ?_)
    rw [reindexRow_pricesDF, reindexRow_weightsDF]
  have hidx : dates (process_etf_data p w).rows =
      concatIndex (dates p) (dates w) := by
    rw [hproc]
    exact dates_map_key _ _
  refine ⟨?_, ?_, ?_, ?_, nodup_weightKeys hrows,
    fun k => mem_weightKeys, ?_⟩
  · rw [hidx]
    exact sorted_concatIndex hp hw
  · rw [hidx]
    exact (sorted_concatIndex hp hw).nodup
  · intro x
    rw [hidx]
    exact mem_concatIndex
  · rw [hproc]
  · intro dt hdt
    rw [hidx] at hdt
    rw [hproc]
    show ((concatIndex (dates p) (dates w)).map (fun dt =>
      (dt, priceCells p dt ++ weightCells w dt))).lookup dt = _
    rw [lookup_map_key, if_pos hdt]

/-- Witness for C3: prices at dates {1,3}, weights at dates {2,3} with
    keys A then B; the union join has dates 1,2,3 ascending, columns
    Close Price, A, B, and NaN cells where a source lacks the date. -/
theorem load_union_join_sorted_witness :
    (dates (process_etf_data [(1, 10), (3, 30)]
      [(2, [("A", 5)]), (3, [("A", 7), ("B", 8)])]).rows).Sorted
        (· < ·) ∧
    (process_etf_data [(1, 10), (3, 30)]
      [(2, [("A", 5)]), (3, [("A", 7), ("B", 8)])]).colNames =
      "Close Price" :: weightKeys [(2, [("A", 5)]), (3, [("A", 7), ("B", 8)])] ∧
    (process_etf_data [(1, 10), (3, 30)]
      [(2, [("A", 5)]), (3, [("A", 7), ("B", 8)])]).rows.lookup 2 =
      some (priceCells [(1, 10), (3, 30)] 2 ++
        weightCells [(2, [("A", 5)]), (3, [("A", 7), ("B", 8)])] 2) := by
  have h := load_union_join_sorted [(1, 10), (3, 30)]
    [(2, [("A", 5)]), (3, [("A", 7), ("B", 8)])]
    (by decide) (by decide) (by decide)
  refine ⟨h.1, h.2.2.2.1, h.2.2.2.2.2.2 2 ?_⟩
  rw [(h.2.2.1 2)]
  right
  decide

/-! ### Shapes of download and selectRename results -/

/-- A successful two-sided filter returns a sub-sequence of the rows. -/
theorem filter_ok_sublist {β : Type} {t : Table β} {s e : Nat}
    {r : Table β} (h : filter_df_by_date t s e = .ok r) : r.Sublist t := by
  rw [filter_df_by_date] at h
  split at h
  · cases h
  · split at h
    · cases h
    · simp only [] at h
      split at h
      · injection h with h
        rw [← h]
        exact (List.take_sublist _ _).trans (List.drop_sublist _ _)
      · cases h
      · cases h

/-- A successful download keeps the column names and returns a
    sub-sequence of the loaded rows. -/
theorem download_ok_shape {V : Type} {d : DF V} {s? e? : Option Nat}
    {df : DF V} (h : download d s? e? = .ok df) :
    df.colNames = d.colNames ∧ df.rows.Sublist d.rows := by
  cases s? with
  | none =>
    cases e? with
    | none =>
      injection h with h
      rw [← h]
      exact ⟨rfl, List.Sublist.refl _⟩
    | some e =>
      injection h with h
      rw [← h]
      exact ⟨rfl, List.take_sublist _ _⟩
  | some s =>
    cases e? with
    | none =>
      injection h with h
      rw [← h]
      exact ⟨rfl, List.drop_sublist _ _⟩
    | some e =>
      rw [download, filterDF] at h
      cases hf : filter_df_by_date d.rows s e with
      | error er =>
        rw [hf] at h
        cases h
      | ok rows' =>
        rw [hf] at h
        injection h with h
        rw [← h]
        exact ⟨rfl, filter_ok_sublist hf⟩

/-- A successful column selection+rename produces the single renamed
    column whose cells are extracted positionally from each row. -/
theorem selectRename_ok_shape {V : Type} {d : DF V} {c n : String}
    {col : DF V} (h : selectRename d c n = .ok col) :
    ∃ i, col = ⟨[n], d.rows.map (fun r => (r.1, [r.2.getD i none]))⟩ := by
  rw [selectRename] at h
  split at h
  · cases h
  · rename_i i heq
    injection h with h
    exact ⟨i, h.symm⟩

/-- When download and selection both succeed, `priceColumn` is exactly
    the column `history` builds for the ticker. -/
theorem priceColumn_eq {V : Type} {d : DF V} {s? e? : Option Nat}
    {name : String} {df col : DF V} (hdl : download d s? e? = .ok df)
    (hsr : selectRename df "Close Price" name = .ok col) :
    priceColumn d s? e? name = col := by
  rw [priceColumn, hdl]
  simp only [hsr]

/-- A key present in the index has a lookup value. -/
theorem lookup_isSome_of_mem {β : Type} {l : Table β} {k : Nat}
    (h : k ∈ dates l) : ∃ v, l.lookup k = some v := by
  induction l with
  | nil => cases h
  | cons r tl ih =>
    rcases r with ⟨a, b⟩
    by_cases hk : k = a
    · subst hk
      exact ⟨b, by simp [List.lookup_cons]⟩
    · have htl : k ∈ dates tl := by
        rcases h with _ | h
        · exact absurd rfl hk
        · assumption
      rcases ih htl with ⟨v, hv⟩
      exact ⟨v, by rw [List.lookup_cons, beq_false_of_ne hk]; exact hv⟩

/-- The per-ticker column: name, sorted duplicate-free index, and each
    present date's row a singleton cell. -/
theorem priceColumn_wf {V : Type} {d : DF V} {s? e? : Option Nat}
    {name : String} {df col : DF V} (hdl : download d s? e? = .ok df)
    (hsr : selectRename df "Close Price" name = .ok col)
    (hs : (dates d.rows).Sorted (· < ·)) :
    col.colNames = [name] ∧ (dates col.rows).Sorted (· < ·) ∧
    (∀ dt, dt ∈ dates col.rows →
      col.rows.lookup dt = some [cellOf col dt]) := by
  rcases selectRename_ok_shape hsr with ⟨i, hcol⟩
  rcases download_ok_shape hdl with ⟨_, hsub⟩
  have hdf : (dates df.rows).Sorted (· < ·) := by
    exact ((List.pairwise_map).2
      ((sortedRows hs).sublist hsub))
  have hdates : dates col.rows = dates df.rows := by
    rw [hcol]
    exact dates_map_payload df.rows (fun r => [r.2.getD i none])
  refine ⟨by rw [hcol], by rw [hdates]; exact hdf, ?_⟩
  intro dt hdt
  have hlookup : col.rows.lookup dt =
      (df.rows.lookup dt).map (fun v => [v.getD i none]) := by
    rw [hcol]
    exact lookup_map_value df.rows (fun v => [v.getD i none]) dt
  rw [hdates] at hdt
  rcases lookup_isSome_of_mem hdt with ⟨v, hx⟩
  rw [hlookup, hx]
  have : cellOf col dt = v.getD i none := by
    rw [cellOf, hlookup, hx]
    rfl
  rw [this]
  rfl

/-- Invariant of `history`'s accumulation loop: after processing a prefix
    of tickers the accumulator is the column-wise outer union of the
    per-ticker price columns — indexed by the sorted union of their dates,
    one column per processed ticker, each cell the ticker's price cell for
    the date (NaN when absent). -/
theorem historyLoop_shape {V : Type} (loadf : String → DF V)
    (s? e? : Option Nat) :
    ∀ (ts names : List String) (cols : List (DF V)) (acc : DF V),
    (∀ tk ∈ ts, ∃ df col, download (loadf tk) s? e? = .ok df ∧
        selectRename df "Close Price" tk = .ok col) →
    (∀ tk ∈ ts, (dates (loadf tk).rows).Sorted (· < ·)) →
    acc.colNames = names →
    names.length = cols.length →
    (dates acc.rows).Sorted (· < ·) →
    (∀ x, x ∈ dates acc.rows ↔ ∃ c ∈ cols, x ∈ dates c.rows) →
    acc.rows = (dates acc.rows).map
      (fun dt => (dt, cols.map (fun c => cellOf c dt))) →
    ∃ res, historyLoop loadf s? e? acc ts = .ok res ∧
      res.colNames = names ++ ts ∧
      (dates res.rows).Sorted (· < ·) ∧
      (∀ x, x ∈ dates res.rows ↔ ∃ c ∈ cols ++ ts.map
        (fun tk => priceColumn (loadf tk) s? e? tk), x ∈ dates c.rows) ∧
      res.rows = (dates res.rows).map (fun dt => (dt,
        (cols ++ ts.map (fun tk => priceColumn (loadf tk) s? e? tk)).map
          (fun c => cellOf c dt))) := by
  intro ts
  induction ts with
  | nil =>
    intro names cols acc hok hsort hnames hlen hsorted hmem hrows
    exact ⟨acc, rfl, by simpa using hnames, hsorted, by simpa using hmem,
      by simpa using hrows⟩
  | cons tk rest ih =>
    intro names cols acc hok hsort hnames hlen hsorted hmem hrows
    rcases hok tk (List.mem_cons_self _ _) with ⟨df, col, hdl, hsr⟩
    rcases priceColumn_wf hdl hsr (hsort tk (List.mem_cons_self _ _))
      with ⟨hcoln, hcolsorted, hcolcell⟩
    have hpc : priceColumn (loadf tk) s? e? tk = col :=
      priceColumn_eq hdl hsr
    have hconcat := concatCols_eq acc col hsorted.nodup hcolsorted.nodup
    have hrow_eq : ∀ dt, reindexRow acc dt ++ reindexRow col dt =
        (cols ++ [col]).map (fun c => cellOf c dt) := by
      intro dt
      have hlk : acc.rows.lookup dt =
          if dt ∈ dates acc.rows
          then some (cols.map (fun c => cellOf c dt)) else none := by
        conv_lhs => rw [hrows]
        exact lookup_map_key _ _ _
      have hacc : reindexRow acc dt = cols.map (fun c => cellOf c dt) := by
        by_cases hdt : dt ∈ dates acc.rows
        · simp only [reindexRow, hlk, if_pos hdt]
        · simp only [reindexRow, hlk, if_neg hdt]
          rw [hnames, hlen]
          symm
          refine List.eq_replicate.2 ⟨List.length_map _ _, ?_⟩
          intro b hb
          rcases List.mem_map.1 hb with ⟨c, hc, hcb⟩
          rw [← hcb]
          refine cellOf_eq_none_of_not_mem ?_
          intro hdtc
          exact hdt ((hmem dt).2 ⟨c, hc, hdtc⟩)
      have hcol' : reindexRow col dt = [cellOf col dt] := by
        by_cases hdt : dt ∈ dates col.rows
        · simp only [reindexRow, hcolcell dt hdt]
        · have hnone := lookup_eq_none_of_not_mem
            (l := col.rows) (k := dt) hdt
          have hcellnone : cellOf col dt = none :=
            cellOf_eq_none_of_not_mem hdt
          simp only [reindexRow, hnone, hcoln, hcellnone]
          rfl
      rw [hacc, hcol', List.map_append]
      rfl
    have hacc'rows : (concatCols acc col).rows =
        (concatIndex (dates acc.rows) (dates col.rows)).map
          (fun dt => (dt, (cols ++ [col]).map (fun c => cellOf c dt))) := by
      rw [hconcat]
      exact List.map_congr_left fun dt _ => by rw [hrow_eq dt]
    have hacc'dates : dates (concatCols acc col).rows =
        concatIndex (dates acc.rows) (dates col.rows) := by
      rw [hacc'rows]
      exact dates_map_key _ _
    have hacc'names : (concatCols acc col).colNames = names ++ [tk] := by
      rw [hconcat]
      show acc.colNames ++ col.colNames = names ++ [tk]
      rw [hnames, hcoln]
    have hacc'sorted : (dates (concatCols acc col).rows).Sorted (· < ·) := by
      rw [hacc'dates]
      exact sorted_concatIndex hsorted hcolsorted
    have hacc'mem : ∀ x, x ∈ dates (concatCols acc col).rows ↔
        ∃ c ∈ cols ++ [col], x ∈ dates c.rows := by
      intro x
      rw [hacc'dates]
      constructor
      · intro h
        rcases mem_concatIndex.1 h with h | h
        · rcases (hmem x).1 h with ⟨c, hc, hx⟩
          exact ⟨c, List.mem_append_left _ hc, hx⟩
        · exact ⟨col, List.mem_append_right _ (List.mem_singleton.2 rfl), h⟩
      · rintro ⟨c, hc, hx⟩
        refine mem_concatIndex.2 ?_
        rcases List.mem_append.1 hc with hc | hc
        · exact Or.inl ((hmem x).2 ⟨c, hc, hx⟩)
        · rcases List.mem_singleton.1 hc with rfl
          exact Or.inr hx
    have hacc'rows' : (concatCols acc col).rows =
        (dates (concatCols acc col).rows).map
          (fun dt => (dt, (cols ++ [col]).map (fun c => cellOf c dt))) := by
      rw [hacc'dates, hacc'rows]
    rcases ih (names ++ [tk]) (cols ++ [col]) (concatCols acc col)
      (fun t ht => hok t (List.mem_cons_of_mem _ ht))
      (fun t ht => hsort t (List.mem_cons_of_mem _ ht))
      hacc'names
      (by simp [hlen])
      hacc'sorted hacc'mem hacc'rows'
      with ⟨res, hres, hresnames, hressorted, hresmem, hresrows⟩
    have hlist : (cols ++ [col]) ++ rest.map
        (fun t => priceColumn (loadf t) s? e? t) =
        cols ++ (tk :: rest).map
          (fun t => priceColumn (loadf t) s? e? t) := by
      rw [List.map_cons, hpc, List.append_assoc]
      rfl
    simp only [hlist] at hresmem hresrows
    refine ⟨res, ?_, ?_, hressorted, hresmem, hresrows⟩
    · rw [historyLoop]
      simp only [hdl, hsr]
      exact hres
    · rw [hresnames, List.append_assoc]
      rfl

/-- C5: for allow-listed tickers whose per-ticker download and price
    extraction succeed, `history` returns one column per requested ticker
    in request order — duplicates preserved as duplicate columns — indexed
    by the ascending outer union of the contributing slices' dates, each
    ticker's cell holding its slice's price for that date and the NaN
    marker for dates the slice lacks. -/
theorem history_outer_union_columns {V : Type} (allow : List String)
    (loadf : String → DF V) (ts : List String) (s? e? : Option Nat)
    (hvalid : ∀ tk ∈ ts, tk ∈ allow)
    (hsort : ∀ tk ∈ ts, (dates (loadf tk).rows).Sorted (· < ·))
    (hok : ∀ tk ∈ ts, ∃ df col, download (loadf tk) s? e? = .ok df ∧
        selectRename df "Close Price" tk = .ok col) :
    ∃ res, history allow loadf ts s? e? = .ok res ∧
      res.colNames = ts ∧
      (dates res.rows).Sorted (· < ·) ∧
      (∀ x, x ∈ dates res.rows ↔
        ∃ tk ∈ ts, x ∈ dates (priceColumn (loadf tk) s? e? tk).rows) ∧
      res.rows = (dates res.rows).map (fun dt => (dt,
        ts.map (fun tk => cellOf (priceColumn (loadf tk) s? e? tk) dt))) ∧
      (∀ tk ∈ ts, (priceColumn (loadf tk) s? e? tk).colNames = [tk]) ∧
      (∀ tk ∈ ts, ∀ dt,
        dt ∉ dates (priceColumn (loadf tk) s? e? tk).rows →
          cellOf (priceColumn (loadf tk) s? e? tk) dt = none) := by
  have hinv : (ts.filter (fun tk => decide (¬ tk ∈ allow))).isEmpty := by
    rw [List.isEmpty_iff, List.filter_eq_nil_iff]
    intro tk htk
    simpa using hvalid tk htk
  have hhist : history allow loadf ts s? e? =
      historyLoop loadf s? e? emptyDF ts := by
    rw [history, if_pos hinv]
  have hbase : ∀ x : Nat, x ∈ dates (emptyDF (V := V)).rows ↔
      ∃ c ∈ ([] : List (DF V)), x ∈ dates c.rows := by
    intro x
    constructor
    · intro h
      cases h
    · rintro ⟨c, hc, _⟩
      cases hc
  rcases historyLoop_shape loadf s? e? ts [] [] emptyDF hok hsort rfl rfl
    List.sorted_nil hbase rfl
    with ⟨res, hres, hresnames, hressorted, hresmem, hresrows⟩
  simp only [List.nil_append] at hresnames hresmem hresrows
  simp only [List.map_map] at hresrows
  refine ⟨res, hhist.trans hres, hresnames, hressorted, ?_, hresrows,
    ?_, ?_⟩
  · intro x
    rw [hresmem x]
    constructor
    · rintro ⟨c, hc, hx⟩
      rcases List.mem_map.1 hc with ⟨t, ht, rfl⟩
      exact ⟨t, ht, hx⟩
    · rintro ⟨t, ht, hx⟩
      exact ⟨_, List.mem_map.2 ⟨t, ht, rfl⟩, hx⟩
  · intro tk htk
    rcases hok tk htk with ⟨df, col, hdl, hsr⟩
    rw [priceColumn_eq hdl hsr]
    exact (priceColumn_wf hdl hsr (hsort tk htk)).1
  · intro tk _ dt hdt
    exact cellOf_eq_none_of_not_mem hdt

/-- Witness for C5: the duplicate request ["Value","Value"] produces two
    identical columns both named "Value". -/
theorem history_outer_union_columns_witness :
    ∃ res, history defaultTickers
        (fun _ => pricesDF [(1, 10), (2, 20)]) ["Value", "Value"]
        none none = .ok res ∧
      res.colNames = ["Value", "Value"] := by
  rcases history_outer_union_columns defaultTickers
      (fun _ => pricesDF [(1, 10), (2, 20)]) ["Value", "Value"] none none
      (by decide)
      (fun tk _ => by
        show (dates (pricesDF [(1, 10), (2, 20)] : DF Nat).rows).Sorted
          (· < ·)
        decide)
      (fun tk _ => ⟨pricesDF [(1, 10), (2, 20)], _, rfl, rfl⟩)
    with ⟨res, h1, h2, _⟩
  exact ⟨res, h1, h2⟩

end MagesticEquityData
